import Mathlib

/-!
Verification development for the leo-chat ingest-index-retrieve pipeline.

Shallow embedding of the core modules:
* `src/config/config.py`              — chunking constants
* `src/processing/processor.py`       — `_create_chunks`, `process_articles`, `index_chunks`
* `src/retrieval/retriever.py`        — `search` and its distance-to-score mapping
* `src/services/db_service.py`        — `insert_article` (upsert by URL)
* `src/scraping/scraper.py`           — `fetch_page`, `_save_article`,
                                        `BaseScraper.scrape_all_articles`

External collaborators (MongoDB, FAISS, the embedding model, HTTP) are modelled
at the boundary the code uses them through: the metadata store is a list of
records with the documented query semantics, the vector index is its size, the
embedder is length-preserving, and each HTTP attempt's outcome is an input.
-/

set_option autoImplicit false

/-! ### Configuration constants (`src/config/config.py`) -/

def CHUNK_SIZE : Nat := 300

def CHUNK_OVERLAP : Nat := 50

/-! ### Word splitting

Python's `text.split()`: split on runs of whitespace, discarding empty pieces.
-/

def splitWordsAux : List Char → List Char → List String
  | [], [] => []
  | [], acc => [String.mk acc.reverse]
  | c :: cs, acc =>
    if c.isWhitespace then
      if acc.isEmpty then splitWordsAux cs []
      else String.mk acc.reverse :: splitWordsAux cs []
    else splitWordsAux cs (c :: acc)

def splitWords (s : String) : List String :=
  splitWordsAux s.data []

/-! ### `range(start, stop, step)` for a positive step, as used by the chunk loop -/

def pyRangeGo (stop step : Nat) : Nat → Nat → List Nat
  | 0, _ => []
  | fuel + 1, start =>
    if start < stop ∧ 0 < step then start :: pyRangeGo stop step fuel (start + step) else []

def pyRange (stop step : Nat) (start : Nat) : List Nat :=
  pyRangeGo stop step (stop - start) start

theorem pyRangeGo_of_stopped {stop step start : Nat} (h : ¬ (start < stop ∧ 0 < step)) :
    ∀ fuel, pyRangeGo stop step fuel start = [] := by
  intro fuel
  cases fuel with
  | zero => rfl
  | succ f => simp [pyRangeGo, h]

theorem pyRangeGo_fuel (stop step : Nat) :
    ∀ (f₁ f₂ start : Nat), stop - start ≤ f₁ → stop - start ≤ f₂ →
      pyRangeGo stop step f₁ start = pyRangeGo stop step f₂ start := by
  intro f₁
  induction f₁ with
  | zero =>
    intro f₂ start h1 h2
    have hns : ¬ (start < stop ∧ 0 < step) := by omega
    rw [pyRangeGo_of_stopped hns, pyRangeGo_of_stopped hns]
  | succ f ih =>
    intro f₂ start h1 h2
    by_cases hc : start < stop ∧ 0 < step
    · obtain ⟨hlt, hstep⟩ := hc
      obtain ⟨f₂', rfl⟩ : ∃ g, f₂ = g + 1 := ⟨f₂ - 1, by omega⟩
      simp only [pyRangeGo, if_pos (And.intro hlt hstep)]
      rw [ih f₂' (start + step) (by omega) (by omega)]
    · rw [pyRangeGo_of_stopped hc, pyRangeGo_of_stopped hc]

/-! ### Chunker (`DocumentProcessor._create_chunks`)

The source appends, for every loop index `i` of
`range(0, len(words), CHUNK_SIZE - CHUNK_OVERLAP)`, the record
`{'text': ' '.join(words[i:i + CHUNK_SIZE]), 'index': len(chunks)}`.
-/

structure RawChunk where
  text : String
  index : Nat
deriving DecidableEq, Repr

def createChunksFrom (w o : Nat) (words : List String) : List RawChunk :=
  (pyRange words.length (w - o) 0).foldl
    (fun chunks i =>
      chunks ++ [{ text := String.intercalate " " ((words.drop i).take w),
                   index := chunks.length }])
    []

def createChunks (text : String) : List RawChunk :=
  createChunksFrom CHUNK_SIZE CHUNK_OVERLAP (splitWords text)

/-- The chunk-count formula asserted by the specification:
`ceil(max(n - o, 1) / (w - o))` for a text of `n` words (natural subtraction
agrees with the spec's integer `max(n - o, 1)` since the `max` clamps at 1). -/
def chunkCountSpec (n : Nat) : Nat :=
  (max (n - CHUNK_OVERLAP) 1 + (CHUNK_SIZE - CHUNK_OVERLAP) - 1) /
    (CHUNK_SIZE - CHUNK_OVERLAP)

/-! ### Basic facts about `pyRange` -/

theorem pyRange_eq (stop step start : Nat) :
    pyRange stop step start =
      if start < stop ∧ 0 < step then start :: pyRange stop step (start + step) else [] := by
  unfold pyRange
  by_cases hc : start < stop ∧ 0 < step
  · obtain ⟨hlt, hstep⟩ := hc
    obtain ⟨f, hf⟩ : ∃ g, stop - start = g + 1 := ⟨stop - start - 1, by omega⟩
    rw [hf]
    simp only [pyRangeGo, if_pos (And.intro hlt hstep)]
    rw [pyRangeGo_fuel stop step f (stop - (start + step)) (start + step) (by omega) (by omega)]
  · rw [pyRangeGo_of_stopped hc, if_neg hc]

theorem pyRange_stopped {stop step start : Nat} (h : ¬ start < stop) :
    pyRange stop step start = [] := by
  rw [pyRange_eq]
  simp [h]

theorem pyRange_step {stop step start : Nat} (h1 : start < stop) (h2 : 0 < step) :
    pyRange stop step start = start :: pyRange stop step (start + step) := by
  rw [pyRange_eq]
  simp [h1, h2]

/-- `pyRange stop step start` is the arithmetic progression
`start, start + step, …` of length `ceil((stop - start) / step)`. -/
theorem pyRange_eq_map_range {step : Nat} (hstep : 0 < step) (stop : Nat) :
    ∀ start, pyRange stop step start =
      (List.range ((stop - start + step - 1) / step)).map (fun k => start + k * step) := by
  have main : ∀ d start, stop - start ≤ d →
      pyRange stop step start =
        (List.range ((stop - start + step - 1) / step)).map (fun k => start + k * step) := by
    intro d
    induction d with
    | zero =>
      intro start hle
      have hns : ¬ start < stop := by omega
      rw [pyRange_stopped hns]
      have h0 : stop - start = 0 := by omega
      have : (stop - start + step - 1) / step = 0 := by
        rw [h0]
        exact Nat.div_eq_of_lt (by omega)
      rw [this]
      simp
    | succ d ih =>
      intro start hle
      by_cases hlt : start < stop
      · rw [pyRange_step hlt hstep]
        rw [ih (start + step) (by omega)]
        have hcnt : (stop - start + step - 1) / step
            = (stop - (start + step) + step - 1) / step + 1 := by
          by_cases hD : stop - start ≤ step
          · have h1 : stop - (start + step) = 0 := by omega
            rw [h1]
            have h2 : (0 + step - 1) / step = 0 := Nat.div_eq_of_lt (by omega)
            rw [h2]
            have h3 : (stop - start + step - 1) / step = 1 := by
              apply Nat.div_eq_of_lt_le <;> omega
            omega
          · have h1 : stop - (start + step) + step - 1 = stop - start - 1 := by omega
            have h2 : stop - start + step - 1 = (stop - start - 1) + step := by omega
            rw [h1, h2, Nat.add_div_right _ hstep]
        rw [hcnt, List.range_succ_eq_map, List.map_cons, List.map_map]
        refine List.cons_eq_cons.mpr ⟨by simp, ?_⟩
        apply List.map_congr_left
        intro k _
        simp only [Function.comp_apply, Nat.succ_eq_add_one, Nat.add_mul, Nat.one_mul]
        omega
      · rw [pyRange_stopped hlt]
        have h0 : stop - start = 0 := by omega
        have hz : (stop - start + step - 1) / step = 0 := by
          rw [h0]
          exact Nat.div_eq_of_lt (by omega)
        rw [hz]
        simp
  intro start
  exact main (stop - start) start (Nat.le_refl _)

/-! ### Characterizing the chunk-building fold -/

/-- Spine of the chunk loop: one record per start index, ordinal counting up. -/
def chunksSpine (g : Nat → String) : List Nat → Nat → List RawChunk
  | [], _ => []
  | i :: t, j => ⟨g i, j⟩ :: chunksSpine g t (j + 1)

theorem chunksSpine_length (g : Nat → String) :
    ∀ (l : List Nat) (j : Nat), (chunksSpine g l j).length = l.length := by
  intro l
  induction l with
  | nil => intro j; rfl
  | cons i t ih => intro j; simp [chunksSpine, ih]

theorem chunksSpine_getElem (g : Nat → String) :
    ∀ (l : List Nat) (j k : Nat) (h : k < l.length)
      (h' : k < (chunksSpine g l j).length),
      (chunksSpine g l j)[k] = ⟨g l[k], j + k⟩ := by
  intro l
  induction l with
  | nil => intro j k h h'; simp at h
  | cons i t ih =>
    intro j k h h'
    match k with
    | 0 => simp [chunksSpine]
    | k + 1 =>
      have ht : k < t.length := by simpa using h
      have ht' : k < (chunksSpine g t (j + 1)).length := by
        rw [chunksSpine_length]; exact ht
      simp only [chunksSpine, List.getElem_cons_succ]
      rw [ih (j + 1) k ht ht']
      simp [Nat.add_assoc, Nat.add_comm 1 k]

theorem chunks_foldl_eq_spine (g : Nat → String) :
    ∀ (l : List Nat) (acc : List RawChunk),
      l.foldl (fun chunks i => chunks ++ [{ text := g i, index := chunks.length }]) acc
        = acc ++ chunksSpine g l acc.length := by
  intro l
  induction l with
  | nil => intro acc; simp [chunksSpine]
  | cons i t ih =>
    intro acc
    simp only [List.foldl_cons]
    rw [ih]
    simp [chunksSpine, List.append_assoc]

theorem createChunksFrom_eq_spine (w o : Nat) (words : List String) :
    createChunksFrom w o words
      = chunksSpine (fun i => String.intercalate " " ((words.drop i).take w))
          (pyRange words.length (w - o) 0) 0 := by
  unfold createChunksFrom
  rw [chunks_foldl_eq_spine]
  rfl

/-- Closed form of the chunker: one chunk per multiple of the stride `w - o`
below the word count, carrying the word window starting there and its ordinal. -/
theorem createChunksFrom_eq_map (w o : Nat) (hwo : o < w) (words : List String) :
    createChunksFrom w o words
      = (List.range ((words.length + (w - o) - 1) / (w - o))).map
          (fun k => { text := String.intercalate " " ((words.drop (k * (w - o))).take w),
                      index := k }) := by
  rw [createChunksFrom_eq_spine, pyRange_eq_map_range (by omega) words.length 0]
  apply List.ext_getElem
  · simp [chunksSpine_length]
  · intro k h1 h2
    have hk : k < ((List.range ((words.length - 0 + (w - o) - 1) / (w - o))).map
        (fun k => 0 + k * (w - o))).length := by
      rw [chunksSpine_length] at h1
      exact h1
    rw [chunksSpine_getElem _ _ _ _ hk h1]
    simp

theorem createChunksFrom_length (w o : Nat) (hwo : o < w) (words : List String) :
    (createChunksFrom w o words).length
      = (words.length + (w - o) - 1) / (w - o) := by
  rw [createChunksFrom_eq_map w o hwo]
  simp

/-- Every word position is covered by the window of some emitted chunk. -/
theorem createChunksFrom_covers (w o : Nat) (hwo : o < w) (words : List String)
    (j : Nat) (hj : j < words.length) :
    ∃ k, k < (createChunksFrom w o words).length
      ∧ k * (w - o) ≤ j ∧ j < k * (w - o) + w := by
  have hs : 0 < w - o := by omega
  refine ⟨j / (w - o), ?_, ?_, ?_⟩
  · rw [createChunksFrom_length w o hwo]
    have h1 : j / (w - o) ≤ (words.length - 1) / (w - o) :=
      Nat.div_le_div_right (by omega)
    have h2 : (words.length + (w - o) - 1) / (w - o)
        = (words.length - 1) / (w - o) + 1 := by
      have he : words.length + (w - o) - 1 = (words.length - 1) + (w - o) := by omega
      rw [he, Nat.add_div_right _ hs]
    omega
  · exact Nat.div_mul_le_self j (w - o)
  · have hmod := Nat.div_add_mod j (w - o)
    have hlt := Nat.mod_lt j hs
    have : j < j / (w - o) * (w - o) + (w - o) := by
      rw [Nat.mul_comm]
      omega
    omega

/-! ### Processor state (`DocumentProcessor`, `src/processing/processor.py`)

Articles live in the metadata store; the vector index is append-only, so only
its size matters for id assignment. `process_articles` selects articles,
chunks them, and marks them processed; `index_chunks` embeds a batch (the
embedder is length-preserving and otherwise opaque), reserves the id range
`[ntotal, ntotal + len)`, appends, and assigns ids in batch order.
-/

structure PArticle where
  aid : Nat
  content : String
  processed : Bool
deriving DecidableEq, Repr

structure PChunk where
  text : String
  chunkIndex : Nat
  articleId : Nat
  faissId : Option Nat
deriving DecidableEq, Repr

structure ProcState where
  articles : List PArticle
  chunkStore : List PChunk
  indexSize : Nat
deriving DecidableEq, Repr

/-- `DatabaseService.get_article`: first document with the given id. -/
def getArticleById (db : List PArticle) (i : Nat) : Option PArticle :=
  db.find? (fun a => a.aid == i)

/-- `DatabaseService.mark_article_processed`: `update_one` sets `processed`
on the first document matching the id. -/
def markArticleProcessed (i : Nat) : List PArticle → List PArticle
  | [] => []
  | a :: rest =>
    if a.aid == i then { a with processed := true } :: rest
    else a :: markArticleProcessed i rest

/-- `DatabaseService.get_unprocessed_articles`: documents whose `processed`
flag is not true, up to the batch size. -/
def getUnprocessedArticles (db : List PArticle) (batchSize : Nat) : List PArticle :=
  (db.filter (fun a => !a.processed)).take batchSize

/-- Article selection in `process_articles`: a truthy `article_ids` list is
resolved id by id (missing ids dropped); otherwise an unprocessed batch of
(default) 100 is pulled. -/
def selectArticles (db : List PArticle) (ids? : Option (List Nat)) : List PArticle :=
  match ids? with
  | some ids =>
    if ids.isEmpty then getUnprocessedArticles db 100
    else ids.filterMap (getArticleById db)
  | none => getUnprocessedArticles db 100

/-- The `Chunk(...)` records built for one article: text and ordinal from the
chunker, owning article id, and no FAISS id yet (`faiss_id = None`). -/
def chunkObjectsFor (a : PArticle) : List PChunk :=
  (createChunks a.content).map
    (fun c => { text := c.text, chunkIndex := c.index, articleId := a.aid, faissId := none })

/-- The per-article loop of `process_articles`: extend the chunk list, then
mark the article processed. -/
def processArticlesLoop : List PArticle → List PChunk → List PArticle →
    List PChunk × List PArticle
  | [], acc, db => (acc, db)
  | a :: rest, acc, db =>
    processArticlesLoop rest (acc ++ chunkObjectsFor a) (markArticleProcessed a.aid db)

/-- `DocumentProcessor.process_articles`. Returns the chunk list and the new
pipeline state; the vector index and the chunk store are not touched here. -/
def processArticles (ids? : Option (List Nat)) (st : ProcState) :
    List PChunk × ProcState :=
  let r := processArticlesLoop (selectArticles st.articles ids?) [] st.articles
  (r.1, { st with articles := r.2 })

/-- Id assignment of `index_chunks`:
`faiss_ids = range(ntotal, ntotal + len(embeddings))` zipped onto the batch. -/
def setFaissIds (chunks : List PChunk) (t : Nat) : List PChunk :=
  chunks.zipWith (fun c fid => { c with faissId := some fid }) (List.range' t chunks.length)

/-- `DocumentProcessor.index_chunks`: no-op on an empty batch; otherwise
reserve `[ntotal, ntotal + m)`, append the vectors (index grows by `m`),
assign ids in batch order, and persist the updated chunks. -/
def indexChunks (chunks : List PChunk) (st : ProcState) : List PChunk × ProcState :=
  if chunks.isEmpty then (chunks, st)
  else
    let chunks' := setFaissIds chunks st.indexSize
    (chunks', { st with indexSize := st.indexSize + chunks.length,
                        chunkStore := st.chunkStore ++ chunks' })

/-! ### Lemmas about id assignment -/

theorem setFaissIds_length (chunks : List PChunk) (t : Nat) :
    (setFaissIds chunks t).length = chunks.length := by
  simp [setFaissIds]

theorem setFaissIds_getElem? (chunks : List PChunk) :
    ∀ (t i : Nat),
      (setFaissIds chunks t)[i]?
        = (chunks[i]?).map (fun c => { c with faissId := some (t + i) }) := by
  induction chunks with
  | nil => intro t i; simp [setFaissIds]
  | cons c rest ih =>
    intro t i
    cases i with
    | zero => simp [setFaissIds, List.range'_succ]
    | succ i =>
      have := ih (t + 1) i
      simp only [setFaissIds, List.length_cons, List.range'_succ, List.zipWith_cons_cons,
        List.getElem?_cons_succ]
      rw [setFaissIds] at this
      rw [this]
      have harith : t + 1 + i = t + (i + 1) := by omega
      rw [harith]

theorem setFaissIds_map (chunks : List PChunk) :
    ∀ t, (setFaissIds chunks t).map PChunk.faissId
      = (List.range' t chunks.length).map some := by
  induction chunks with
  | nil => intro t; simp [setFaissIds]
  | cons c rest ih =>
    intro t
    simp only [setFaissIds, List.length_cons, List.range'_succ, List.zipWith_cons_cons,
      List.map_cons]
    rw [List.cons_eq_cons]
    refine ⟨rfl, ?_⟩
    have := ih (t + 1)
    rw [setFaissIds] at this
    exact this

/-! ### Lemmas about marking and lookup -/

theorem markArticleProcessed_lookup_self (i : Nat) :
    ∀ (db : List PArticle) (a : PArticle),
      getArticleById (markArticleProcessed i db) i = some a → a.processed = true := by
  intro db
  induction db with
  | nil => intro a h; simp [markArticleProcessed, getArticleById] at h
  | cons x rest ih =>
    intro a h
    by_cases hx : (x.aid == i) = true
    · simp only [markArticleProcessed, if_pos hx, getArticleById] at h
      rw [List.find?_cons_of_pos _ (by simpa using hx)] at h
      cases h
      rfl
    · simp only [markArticleProcessed, if_neg hx, getArticleById] at h
      rw [List.find?_cons_of_neg _ (by simpa using hx)] at h
      exact ih a h

theorem markArticleProcessed_lookup_preserved (i j : Nat) :
    ∀ (db : List PArticle),
      (∀ a, getArticleById db j = some a → a.processed = true) →
      (∀ a, getArticleById (markArticleProcessed i db) j = some a → a.processed = true) := by
  intro db
  induction db with
  | nil => intro h a ha; simp [markArticleProcessed] at ha; exact h a ha
  | cons x rest ih =>
    intro h a ha
    by_cases hx : (x.aid == i) = true
    · simp only [markArticleProcessed, if_pos hx, getArticleById] at ha
      by_cases hj : (x.aid == j) = true
      · rw [List.find?_cons_of_pos _ (by simpa using hj)] at ha
        cases ha
        rfl
      · rw [List.find?_cons_of_neg _ (by simpa using hj)] at ha
        apply h a
        simp only [getArticleById]
        rw [List.find?_cons_of_neg _ (by simpa using hj)]
        exact ha
    · simp only [markArticleProcessed, if_neg hx, getArticleById] at ha
      by_cases hj : (x.aid == j) = true
      · rw [List.find?_cons_of_pos _ (by simpa using hj)] at ha
        apply h a
        simp only [getArticleById]
        rw [List.find?_cons_of_pos _ (by simpa using hj)]
        exact ha
      · rw [List.find?_cons_of_neg _ (by simpa using hj)] at ha
        refine ih ?_ a ha
        intro b hb
        apply h b
        simp only [getArticleById]
        rw [List.find?_cons_of_neg _ (by simpa using hj)]
        exact hb

theorem markArticleProcessed_lookup_isSome (i j : Nat) :
    ∀ (db : List PArticle),
      (getArticleById (markArticleProcessed i db) j).isSome
        = (getArticleById db j).isSome := by
  intro db
  induction db with
  | nil => simp [markArticleProcessed]
  | cons x rest ih =>
    by_cases hx : (x.aid == i) = true
    · simp only [markArticleProcessed, if_pos hx, getArticleById]
      by_cases hj : (x.aid == j) = true
      · rw [List.find?_cons_of_pos _ (by simpa using hj),
          List.find?_cons_of_pos _ (by simpa using hj)]
        rfl
      · rw [List.find?_cons_of_neg _ (by simpa using hj),
          List.find?_cons_of_neg _ (by simpa using hj)]
    · simp only [markArticleProcessed, if_neg hx, getArticleById]
      by_cases hj : (x.aid == j) = true
      · rw [List.find?_cons_of_pos _ (by simpa using hj),
          List.find?_cons_of_pos _ (by simpa using hj)]
      · rw [List.find?_cons_of_neg _ (by simpa using hj),
          List.find?_cons_of_neg _ (by simpa using hj)]
        exact ih

/-! ### Lemmas about the `process_articles` loop -/

theorem processArticlesLoop_chunks :
    ∀ (arts : List PArticle) (acc : List PChunk) (db : List PArticle) (c : PChunk),
      c ∈ (processArticlesLoop arts acc db).1 →
      c ∈ acc ∨ ∃ a ∈ arts, c ∈ chunkObjectsFor a := by
  intro arts
  induction arts with
  | nil => intro acc db c h; exact Or.inl h
  | cons a rest ih =>
    intro acc db c h
    rcases ih _ _ c h with hin | ⟨a', ha', hc⟩
    · rcases List.mem_append.mp hin with h1 | h2
      · exact Or.inl h1
      · exact Or.inr ⟨a, List.mem_cons_self a rest, h2⟩
    · exact Or.inr ⟨a', List.mem_cons_of_mem a ha', hc⟩

theorem processArticlesLoop_db_preserved (j : Nat) :
    ∀ (arts : List PArticle) (acc : List PChunk) (db : List PArticle),
      (∀ a, getArticleById db j = some a → a.processed = true) →
      (∀ a, getArticleById (processArticlesLoop arts acc db).2 j = some a →
        a.processed = true) := by
  intro arts
  induction arts with
  | nil => intro acc db h; exact h
  | cons a rest ih =>
    intro acc db h
    exact ih _ _ (markArticleProcessed_lookup_preserved a.aid j db h)

theorem processArticlesLoop_db_isSome (j : Nat) :
    ∀ (arts : List PArticle) (acc : List PChunk) (db : List PArticle),
      (getArticleById (processArticlesLoop arts acc db).2 j).isSome
        = (getArticleById db j).isSome := by
  intro arts
  induction arts with
  | nil => intro acc db; rfl
  | cons a rest ih =>
    intro acc db
    rw [processArticlesLoop, ih, markArticleProcessed_lookup_isSome]

theorem processArticlesLoop_marks :
    ∀ (arts : List PArticle) (acc : List PChunk) (db : List PArticle) (a : PArticle),
      a ∈ arts →
      (∀ a', getArticleById (processArticlesLoop arts acc db).2 a.aid = some a' →
        a'.processed = true) := by
  intro arts
  induction arts with
  | nil => intro acc db a h; cases h
  | cons x rest ih =>
    intro acc db a h
    rcases List.mem_cons.mp h with rfl | hmem
    · exact processArticlesLoop_db_preserved a.aid rest _ _
        (markArticleProcessed_lookup_self a.aid db)
    · exact ih _ _ a hmem

theorem selectArticles_mem (db : List PArticle) (ids? : Option (List Nat)) (a : PArticle) :
    a ∈ selectArticles db ids? → a ∈ db := by
  intro h
  match ids? with
  | none =>
    simp only [selectArticles, getUnprocessedArticles] at h
    exact List.mem_of_mem_filter (List.mem_of_mem_take h)
  | some ids =>
    simp only [selectArticles] at h
    by_cases he : ids.isEmpty
    · rw [if_pos he] at h
      exact List.mem_of_mem_filter (List.mem_of_mem_take h)
    · rw [if_neg he] at h
      obtain ⟨i, _, hfind⟩ := List.mem_filterMap.mp h
      exact List.mem_of_find?_eq_some hfind

/-! ### Retriever (`DocumentRetriever.search`, `src/retrieval/retriever.py`)

The k-NN call is the opaque boundary: its output, the list of
(distance, faiss id) hits in the index's return order, is the input here.
Distances are modelled as rationals. The query loop resolves each hit to a
chunk and then to an article, applies the source filter, converts the
distance to a score, and stamps `rank = i + 1` with `i` the `enumerate`
index over the raw hit list.
-/

structure RChunk where
  text : String
  articleId : Nat
  faissId : Int
deriving DecidableEq, Repr

structure RArticle where
  aid : Nat
  title : String
  url : String
  source : String
  dateStr : String
deriving DecidableEq, Repr

structure RDB where
  chunks : List RChunk
  articles : List RArticle
deriving DecidableEq, Repr

/-- `DatabaseService.get_chunk_by_faiss_id`. -/
def getChunkByFaissId (db : RDB) (fid : Int) : Option RChunk :=
  db.chunks.find? (fun c => c.faissId == fid)

/-- `DatabaseService.get_article` on the retrieval side. -/
def getRArticle (db : RDB) (i : Nat) : Option RArticle :=
  db.articles.find? (fun a => a.aid == i)

/-- Python truthiness of the `sources` argument: `None` and `[]` are falsy,
so both disable the filter. -/
def sourcesTruthy : Option (List String) → Bool
  | none => false
  | some l => !l.isEmpty

/-- `score = 1 / (1 + distance)`. -/
def simScore (d : ℚ) : ℚ := 1 / (1 + d)

structure SearchResult where
  text : String
  articleTitle : String
  articleDate : String
  articleUrl : String
  source : String
  score : ℚ
  rank : Nat
deriving DecidableEq, Repr

def mkResult (c : RChunk) (a : RArticle) (d : ℚ) (i : Nat) : SearchResult :=
  { text := c.text, articleTitle := a.title, articleDate := a.dateStr,
    articleUrl := a.url, source := a.source, score := simScore d, rank := i + 1 }

/-- The body of the hit loop in `search`, with `i` the enumerate counter. -/
def searchGo (db : RDB) (srcs : Option (List String)) :
    List (ℚ × Int) → Nat → List SearchResult
  | [], _ => []
  | (d, fid) :: rest, i =>
    match getChunkByFaissId db fid with
    | none => searchGo db srcs rest (i + 1)
    | some chunk =>
      match getRArticle db chunk.articleId with
      | none => searchGo db srcs rest (i + 1)
      | some article =>
        if sourcesTruthy srcs && !((srcs.getD []).contains article.source) then
          searchGo db srcs rest (i + 1)
        else
          mkResult chunk article d i :: searchGo db srcs rest (i + 1)

/-- `DocumentRetriever.search`, given the raw hit list from the index. -/
def search (db : RDB) (hits : List (ℚ × Int)) (srcs : Option (List String)) :
    List SearchResult :=
  searchGo db srcs hits 0

/-- Resolution of one hit: the chunk/article pair it contributes, if the
chunk and article resolve and the source filter keeps it. -/
def resolveHit (db : RDB) (srcs : Option (List String)) (h : ℚ × Int) :
    Option (RChunk × RArticle) :=
  match getChunkByFaissId db h.2 with
  | none => none
  | some chunk =>
    match getRArticle db chunk.articleId with
    | none => none
    | some article =>
      if sourcesTruthy srcs && !((srcs.getD []).contains article.source) then none
      else some (chunk, article)

theorem searchGo_eq_filterMap (db : RDB) (srcs : Option (List String)) :
    ∀ (hits : List (ℚ × Int)) (i : Nat),
      searchGo db srcs hits i
        = (hits.enumFrom i).filterMap
            (fun p => (resolveHit db srcs p.2).map (fun ca => mkResult ca.1 ca.2 p.2.1 p.1)) := by
  intro hits
  induction hits with
  | nil => intro i; rfl
  | cons hd rest ih =>
    intro i
    obtain ⟨d, fid⟩ := hd
    rw [List.enumFrom_cons, List.filterMap_cons]
    cases hc : getChunkByFaissId db fid with
    | none =>
      have hr : resolveHit db srcs (d, fid) = none := by simp [resolveHit, hc]
      simp only [searchGo, hc, hr, Option.map_none']
      exact ih (i + 1)
    | some chunk =>
      cases ha : getRArticle db chunk.articleId with
      | none =>
        have hr : resolveHit db srcs (d, fid) = none := by simp [resolveHit, hc, ha]
        simp only [searchGo, hc, ha, hr, Option.map_none']
        exact ih (i + 1)
      | some article =>
        by_cases hf : (sourcesTruthy srcs && !((srcs.getD []).contains article.source)) = true
        · have hr : resolveHit db srcs (d, fid) = none := by
            simp only [resolveHit, hc, ha, if_pos hf]
          simp only [searchGo, hc, ha, if_pos hf, hr, Option.map_none']
          exact ih (i + 1)
        · have hr : resolveHit db srcs (d, fid) = some (chunk, article) := by
            simp only [resolveHit, hc, ha, if_neg hf]
          simp only [searchGo, hc, ha, if_neg hf, hr, Option.map_some']
          rw [ih (i + 1)]

theorem search_eq_filterMap (db : RDB) (srcs : Option (List String))
    (hits : List (ℚ × Int)) :
    search db hits srcs
      = hits.enum.filterMap
          (fun p => (resolveHit db srcs p.2).map (fun ca => mkResult ca.1 ca.2 p.2.1 p.1)) := by
  rw [search, searchGo_eq_filterMap]
  rfl

/-- The unfiltered run keeps everything the filtered run keeps, with the
same resolved value. -/
theorem resolveHit_filter_le (db : RDB) (srcsl : List String) (h : ℚ × Int)
    (ca : RChunk × RArticle) :
    resolveHit db (some srcsl) h = some ca → resolveHit db none h = some ca := by
  intro hr
  cases hc : getChunkByFaissId db h.2 with
  | none =>
    have e : resolveHit db (some srcsl) h = none := by simp [resolveHit, hc]
    rw [e] at hr
    cases hr
  | some chunk =>
    cases ha : getRArticle db chunk.articleId with
    | none =>
      have e : resolveHit db (some srcsl) h = none := by simp [resolveHit, hc, ha]
      rw [e] at hr
      cases hr
    | some article =>
      have e2 : resolveHit db none h = some (chunk, article) := by
        simp [resolveHit, hc, ha, sourcesTruthy]
      by_cases hf : (sourcesTruthy (some srcsl)
          && !(((some srcsl : Option (List String))).getD []).contains article.source) = true
      · have e : resolveHit db (some srcsl) h = none := by
          simp only [resolveHit, hc, ha, if_pos hf]
        rw [e] at hr
        cases hr
      · have e : resolveHit db (some srcsl) h = some (chunk, article) := by
          simp only [resolveHit, hc, ha, if_neg hf]
        rw [e] at hr
        rw [e2, hr]

theorem filterMap_sublist_of_le {α β : Type} (f g : α → Option β)
    (hfg : ∀ a b, f a = some b → g a = some b) :
    ∀ l : List α, (l.filterMap f).Sublist (l.filterMap g) := by
  intro l
  induction l with
  | nil => simp
  | cons x rest ih =>
    simp only [List.filterMap_cons]
    cases hf : f x with
    | none =>
      cases hg : g x with
      | none => exact ih
      | some b => exact ih.trans (List.sublist_cons_self b _)
    | some b =>
      rw [hfg x b hf]
      exact ih.cons₂ b

/-- Every score in the loop's output is the score of some input distance. -/
theorem searchGo_score_mem (db : RDB) (srcs : Option (List String)) :
    ∀ (hits : List (ℚ × Int)) (i : Nat) (r : SearchResult),
      r ∈ searchGo db srcs hits i → ∃ p ∈ hits, r.score = simScore p.1 := by
  intro hits
  induction hits with
  | nil => intro i r h; cases h
  | cons hd rest ih =>
    intro i r h
    obtain ⟨d, fid⟩ := hd
    by_cases hcase : r ∈ searchGo db srcs rest (i + 1)
    · obtain ⟨p, hp, hs⟩ := ih (i + 1) r hcase
      exact ⟨p, List.mem_cons_of_mem _ hp, hs⟩
    · cases hc : getChunkByFaissId db fid with
      | none =>
        simp only [searchGo, hc] at h
        exact absurd h hcase
      | some chunk =>
        cases ha : getRArticle db chunk.articleId with
        | none =>
          simp only [searchGo, hc, ha] at h
          exact absurd h hcase
        | some article =>
          by_cases hf : (sourcesTruthy srcs && !((srcs.getD []).contains article.source)) = true
          · simp only [searchGo, hc, ha, if_pos hf] at h
            exact absurd h hcase
          · simp only [searchGo, hc, ha, if_neg hf] at h
            rcases List.mem_cons.mp h with rfl | hmem
            · exact ⟨(d, fid), List.mem_cons_self _ _, rfl⟩
            · exact absurd hmem hcase

/-- The score map is antitone on nonnegative distances. -/
theorem simScore_anti {a b : ℚ} (ha : 0 ≤ a) (hab : a ≤ b) : simScore b ≤ simScore a := by
  unfold simScore
  have h1 : (0 : ℚ) < 1 + a := by linarith
  have h2 : (0 : ℚ) < 1 + b := by linarith
  exact one_div_le_one_div_of_le h1 (by linarith)

/-- The loop output is sorted by non-increasing score whenever the distances
arrive sorted ascending and nonnegative. -/
theorem searchGo_sorted (db : RDB) (srcs : Option (List String)) :
    ∀ (hits : List (ℚ × Int)) (i : Nat),
      hits.Pairwise (fun p q => p.1 ≤ q.1) →
      (∀ p ∈ hits, 0 ≤ p.1) →
      (searchGo db srcs hits i).Pairwise (fun r s => s.score ≤ r.score) := by
  intro hits
  induction hits with
  | nil => intro i _ _; exact List.Pairwise.nil
  | cons hd rest ih =>
    intro i hsorted hnn
    obtain ⟨d, fid⟩ := hd
    have hsr : rest.Pairwise (fun p q => p.1 ≤ q.1) := (List.pairwise_cons.mp hsorted).2
    have hle : ∀ p ∈ rest, d ≤ p.1 := (List.pairwise_cons.mp hsorted).1
    have hnr : ∀ p ∈ rest, 0 ≤ p.1 := fun p hp => hnn p (List.mem_cons_of_mem _ hp)
    have hd0 : 0 ≤ d := hnn (d, fid) (List.mem_cons_self _ _)
    have htail := ih (i + 1) hsr hnr
    cases hc : getChunkByFaissId db fid with
    | none => simpa only [searchGo, hc] using htail
    | some chunk =>
      cases ha : getRArticle db chunk.articleId with
      | none => simpa only [searchGo, hc, ha] using htail
      | some article =>
        by_cases hf : (sourcesTruthy srcs && !((srcs.getD []).contains article.source)) = true
        · simpa only [searchGo, hc, ha, if_pos hf] using htail
        · simp only [searchGo, hc, ha, if_neg hf]
          refine List.pairwise_cons.mpr ⟨?_, htail⟩
          intro r hr
          obtain ⟨p, hp, hs⟩ := searchGo_score_mem db srcs rest (i + 1) r hr
          rw [hs]
          exact simScore_anti hd0 (hle p hp)

/-! ### Document store (`DatabaseService.insert_article`, `src/services/db_service.py`)

`insert_article` runs `update_one({"url": url}, {"$set": doc}, upsert=True)`
against a collection with a unique index on `url`: the first document whose
URL matches is overwritten with the new field values, and if none matches
the document is appended.
-/

structure DArticle where
  aid : Nat
  title : String
  content : String
  url : String
  source : String
  processed : Bool
deriving DecidableEq, Repr

def insertArticle (db : List DArticle) (a : DArticle) : List DArticle :=
  match db with
  | [] => [a]
  | x :: rest => if x.url == a.url then a :: rest else x :: insertArticle rest a

/-- URL-uniqueness invariant of the articles collection. -/
def urlUnique (db : List DArticle) : Prop :=
  (db.map DArticle.url).Nodup

theorem insertArticle_urls_of_mem (db : List DArticle) (a : DArticle) :
    ∀ x ∈ insertArticle db a, x.url ∈ db.map DArticle.url ∨ x.url = a.url := by
  induction db with
  | nil =>
    intro x hx
    rcases List.mem_singleton.mp hx with rfl
    exact Or.inr rfl
  | cons y rest ih =>
    intro x hx
    simp only [insertArticle] at hx
    by_cases hy : (y.url == a.url) = true
    · rw [if_pos hy] at hx
      rcases List.mem_cons.mp hx with rfl | hmem
      · exact Or.inr rfl
      · exact Or.inl (List.mem_cons_of_mem _ (List.mem_map_of_mem DArticle.url hmem))
    · rw [if_neg hy] at hx
      rcases List.mem_cons.mp hx with rfl | hmem
      · exact Or.inl (List.mem_cons_self _ _)
      · rcases ih x hmem with h | h
        · exact Or.inl (List.mem_cons_of_mem _ h)
        · exact Or.inr h

theorem insertArticle_fresh (db : List DArticle) (a : DArticle)
    (hfresh : a.url ∉ db.map DArticle.url) :
    insertArticle db a = db ++ [a] := by
  induction db with
  | nil => rfl
  | cons y rest ih =>
    have hy : ¬ (y.url == a.url) = true := by
      simp only [List.map_cons, List.mem_cons] at hfresh
      simp only [beq_iff_eq]
      intro he
      exact hfresh (Or.inl he.symm)
    simp only [insertArticle, if_neg hy, List.cons_append]
    rw [List.cons_eq_cons]
    refine ⟨rfl, ih ?_⟩
    intro hmem
    exact hfresh (by simp [hmem])

theorem insertArticle_countP (db : List DArticle) (a : DArticle) :
    urlUnique db →
    (insertArticle db a).countP (fun x => x.url == a.url) = 1 := by
  induction db with
  | nil => intro _; simp [insertArticle, List.countP_cons]
  | cons y rest ih =>
    intro hu
    have hu' : urlUnique rest := by
      simpa [urlUnique] using (List.nodup_cons.mp hu).2
    have hyn : y.url ∉ rest.map DArticle.url := by
      simpa [urlUnique] using (List.nodup_cons.mp hu).1
    simp only [insertArticle]
    by_cases hy : (y.url == a.url) = true
    · rw [if_pos hy]
      have hay : a.url = y.url := (beq_iff_eq.mp hy).symm
      have hz : rest.countP (fun x => x.url == a.url) = 0 := by
        rw [List.countP_eq_zero]
        intro x hx
        simp only [beq_iff_eq]
        intro he
        exact hyn (by rw [← hay, ← he]; exact List.mem_map_of_mem DArticle.url hx)
      simp [List.countP_cons, hz]
    · rw [if_neg hy]
      rw [List.countP_cons]
      rw [ih hu']
      simp [hy]

/-! ### Scraper (`BaseScraper`, `src/scraping/scraper.py`)

`fetch_page` is driven by the outcome of each HTTP attempt: a response with a
status and a body, or a raised network error. The crawl session
(`BaseScraper.scrape_all_articles`) is driven by one datum per page: `none`
when the page fetch failed, otherwise the parsed article links, each carrying
the URL that is checked against the store and the scrape result for that
link. Only the URL influences control flow, so a scraped article is its URL.
-/

inductive FetchOutcome where
  | resp (status : Nat) (body : String)
  | err
deriving DecidableEq, Repr

/-- `max_retries = 3` in `fetch_page`. -/
def MAX_RETRIES : Nat := 3

/-- The `for attempt in range(max_retries)` loop of `fetch_page`: a 200
response returns its body; any other response returns `None` at once; a
raised error returns `None` on the last attempt and otherwise sleeps and
retries. -/
def fetchGo : Nat → List FetchOutcome → Option String
  | _, [] => none
  | attempt, o :: rest =>
    match o with
    | FetchOutcome.resp status body =>
      if status == 200 then some body else none
    | FetchOutcome.err =>
      if attempt == MAX_RETRIES - 1 then none else fetchGo (attempt + 1) rest

/-- `BaseScraper.fetch_page`, fed the outcome of each successive attempt. -/
def fetchPage (outcomes : List FetchOutcome) : Option String :=
  fetchGo 0 outcomes

/-! #### Crawl-session model -/

structure PageLink where
  url : String
  scraped : Option String
deriving DecidableEq, Repr

structure SessState where
  found : Nat
  db : List String
deriving DecidableEq, Repr

inductive StopReason where
  | maxReached
  | fetchFail
  | emptyPages
deriving DecidableEq, Repr

structure SessResult where
  st : SessState
  pagesVisited : Nat
  reason : StopReason
deriving DecidableEq, Repr

/-- Python truthiness of `self.max_articles` composed with the budget test:
`if self.max_articles and self.new_articles_found >= self.max_articles`. -/
def capReached (maxA : Option Nat) (found : Nat) : Bool :=
  match maxA with
  | none => false
  | some m => m != 0 && found ≥ m

/-- `BaseScraper._save_article`: refuse when the budget is exhausted, skip an
existing URL, otherwise insert and bump `new_articles_found`. -/
def saveArticle (maxA : Option Nat) (st : SessState) (articleUrl : String) :
    Bool × SessState :=
  if capReached maxA st.found then (false, st)
  else if st.db.contains articleUrl then (false, st)
  else (true, { found := st.found + 1, db := st.db ++ [articleUrl] })

/-- `max_empty_pages = 5` in `BaseScraper.scrape_all_articles`. -/
def MAX_EMPTY_PAGES : Nat := 5

/-- The per-page link loop: budget check, existence pre-check, scrape, save;
returns the updated state and `page_new_articles`. -/
def processLinks (maxA : Option Nat) :
    List PageLink → SessState → Nat → SessState × Nat
  | [], st, pn => (st, pn)
  | l :: rest, st, pn =>
    if capReached maxA st.found then (st, pn)
    else if st.db.contains l.url then processLinks maxA rest st pn
    else
      match l.scraped with
      | none => processLinks maxA rest st pn
      | some u =>
        let r := saveArticle maxA st u
        processLinks maxA rest r.2 (if r.1 then pn + 1 else pn)

/-- The page loop of `BaseScraper.scrape_all_articles`. A page datum of
`none` is a failed fetch; running past the supplied pages is likewise a
failed fetch of the next page. A page with no links bumps
`consecutive_empty_pages` at the empty-links check and then, having saved
nothing, bumps it again at the end-of-page check. -/
def scrapeLoop (maxA : Option Nat) :
    List (Option (List PageLink)) → SessState → Nat → Nat → SessResult
  | pages, st, cep, visited =>
    if capReached maxA st.found then ⟨st, visited, StopReason.maxReached⟩
    else
      match pages with
      | [] => ⟨st, visited, StopReason.fetchFail⟩
      | p :: rest =>
        match p with
        | none => ⟨st, visited + 1, StopReason.fetchFail⟩
        | some links =>
          if links.isEmpty then
            if cep + 1 ≥ MAX_EMPTY_PAGES then ⟨st, visited + 1, StopReason.emptyPages⟩
            else if cep + 2 ≥ MAX_EMPTY_PAGES then ⟨st, visited + 1, StopReason.emptyPages⟩
            else scrapeLoop maxA rest st (cep + 2) (visited + 1)
          else
            let r := processLinks maxA links st 0
            if r.2 > 0 then scrapeLoop maxA rest r.1 0 (visited + 1)
            else if cep + 1 ≥ MAX_EMPTY_PAGES then
              ⟨r.1, visited + 1, StopReason.emptyPages⟩
            else scrapeLoop maxA rest r.1 (cep + 1) (visited + 1)

/-- A crawl session from a fresh scraper (`new_articles_found = 0`,
`consecutive_empty_pages = 0`) against an empty store. -/
def scrapeSession (maxA : Option Nat) (pages : List (Option (List PageLink))) :
    SessResult :=
  scrapeLoop maxA pages ⟨0, []⟩ 0 0

/-! ## Claim theorems -/

/-- C3 counterexample input: a text of 251 single-letter words. -/
def exText251 : String := String.intercalate " " (List.replicate 251 "a")

/-- C3 (amended): for every text, with `n` its number of whitespace-separated
words and `s = CHUNK_SIZE - CHUNK_OVERLAP` the stride, `_create_chunks`
produces exactly `ceil(n / s) = (n + s - 1) / s` chunks (0 for the empty
text); their ordinals are exactly `0..count-1` in order; the k-th chunk is
the word window of width `CHUNK_SIZE` starting at word `k*s`; and these
windows cover every one of the `n` words with no gaps. The spec's count
`ceil(max(n - o, 1) / s)` is wrong: the loop emits a redundant tail chunk
whenever `n mod s` lies in `(0, o]`, and no chunk at all when `n = 0`. -/
theorem C3_chunker_amended (text : String) :
    (createChunks text).length
        = ((splitWords text).length + (CHUNK_SIZE - CHUNK_OVERLAP) - 1)
            / (CHUNK_SIZE - CHUNK_OVERLAP)
    ∧ (createChunks text).map RawChunk.index = List.range (createChunks text).length
    ∧ (∀ k (hk : k < (createChunks text).length),
        (createChunks text).get ⟨k, hk⟩
          = { text := String.intercalate " "
                (((splitWords text).drop (k * (CHUNK_SIZE - CHUNK_OVERLAP))).take CHUNK_SIZE),
              index := k })
    ∧ (∀ j, j < (splitWords text).length →
        ∃ k, k < (createChunks text).length
          ∧ k * (CHUNK_SIZE - CHUNK_OVERLAP) ≤ j
          ∧ j < k * (CHUNK_SIZE - CHUNK_OVERLAP) + CHUNK_SIZE) := by
  have hwo : CHUNK_OVERLAP < CHUNK_SIZE := by decide
  have hmap := createChunksFrom_eq_map CHUNK_SIZE CHUNK_OVERLAP hwo (splitWords text)
  have hlen := createChunksFrom_length CHUNK_SIZE CHUNK_OVERLAP hwo (splitWords text)
  refine ⟨hlen, ?_, ?_, ?_⟩
  · rw [createChunks, hmap, List.map_map, List.length_map, List.length_range]
    show List.map id _ = _
    exact List.map_id _
  · intro k hk
    have hk2 : k < ((splitWords text).length + (CHUNK_SIZE - CHUNK_OVERLAP) - 1)
        / (CHUNK_SIZE - CHUNK_OVERLAP) := by
      rw [← hlen]
      exact hk
    have h? : (createChunks text)[k]?
        = some { text := String.intercalate " "
                  (((splitWords text).drop (k * (CHUNK_SIZE - CHUNK_OVERLAP))).take CHUNK_SIZE),
                 index := k } := by
      rw [createChunks, hmap, List.getElem?_map, List.getElem?_range hk2]
      rfl
    rw [List.get_eq_getElem]
    exact Option.some.inj ((List.getElem?_eq_getElem hk).symm.trans h?)
  · intro j hj
    exact createChunksFrom_covers CHUNK_SIZE CHUNK_OVERLAP hwo (splitWords text) j hj

/-- C3 witness: instantiating the amended theorem on the two-word text
"alpha beta" gives a single chunk, and word 1 is covered by its window. -/
theorem C3_chunker_amended_witness :
    (createChunks "alpha beta").length = 1
    ∧ ∃ k, k < (createChunks "alpha beta").length
        ∧ k * (CHUNK_SIZE - CHUNK_OVERLAP) ≤ 1
        ∧ 1 < k * (CHUNK_SIZE - CHUNK_OVERLAP) + CHUNK_SIZE := by
  have h := C3_chunker_amended "alpha beta"
  have hn : (splitWords "alpha beta").length = 2 := by decide
  constructor
  · rw [h.1, hn]
    decide
  · exact h.2.2.2 1 (by rw [hn]; omega)

/-- C3 counterexample: the claimed count `ceil(max(n - o, 1) / (w - o))` is
wrong at the 251-word text (code emits 2 chunks, the formula says 1) and at
the empty text (code emits 0 chunks, the formula says 1). -/
theorem C3_counterexample :
    (splitWords exText251).length = 251
    ∧ (createChunks exText251).length = 2
    ∧ chunkCountSpec 251 = 1
    ∧ (createChunks exText251).length ≠ chunkCountSpec 251
    ∧ (splitWords "").length = 0
    ∧ (createChunks "").length = 0
    ∧ chunkCountSpec 0 = 1
    ∧ (createChunks "").length ≠ chunkCountSpec 0 := by
  have hwo : CHUNK_OVERLAP < CHUNK_SIZE := by decide
  have hn : (splitWords exText251).length = 251 := by
    set_option maxRecDepth 40000 in decide
  have h2 : (createChunks exText251).length = 2 := by
    rw [createChunks, createChunksFrom_length CHUNK_SIZE CHUNK_OVERLAP hwo, hn]
    decide
  have h0 : (createChunks "").length = 0 := by
    rw [createChunks, createChunksFrom_length CHUNK_SIZE CHUNK_OVERLAP hwo]
    decide
  refine ⟨hn, h2, by decide, ?_, by decide, h0, by decide, ?_⟩
  · rw [h2]
    decide
  · rw [h0]
    decide

/-- C1: `index_chunks` on a non-empty batch of `m` chunks, with the vector
index at size `t`, gives the i-th chunk id `t + i`: the assigned ids are
exactly the range `[t, t+m)`, each used once, in batch order, and the index
size afterwards is `t + m`. -/
theorem C1_index_chunks_id_alignment (chunks : List PChunk) (st : ProcState)
    (hne : chunks ≠ []) :
    ((indexChunks chunks st).1).length = chunks.length
    ∧ ((indexChunks chunks st).1).map PChunk.faissId
        = (List.range' st.indexSize chunks.length).map some
    ∧ (∀ i : Nat, ((indexChunks chunks st).1)[i]?
        = (chunks[i]?).map (fun c => { c with faissId := some (st.indexSize + i) }))
    ∧ ((indexChunks chunks st).2).indexSize = st.indexSize + chunks.length := by
  have hni : chunks.isEmpty = false := by
    cases chunks with
    | nil => exact absurd rfl hne
    | cons c cs => rfl
  refine ⟨?_, ?_, ?_, ?_⟩
  · simp only [indexChunks, hni, Bool.false_eq_true, if_false]
    exact setFaissIds_length chunks st.indexSize
  · simp only [indexChunks, hni, Bool.false_eq_true, if_false]
    exact setFaissIds_map chunks st.indexSize
  · intro i
    simp only [indexChunks, hni, Bool.false_eq_true, if_false]
    exact setFaissIds_getElem? chunks st.indexSize i
  · simp only [indexChunks, hni, Bool.false_eq_true, if_false]

/-- C1 witness: the spec scenario — 5 chunks into an index of size 10 get
ids 10..14 in order and the size becomes 15. -/
theorem C1_index_chunks_id_alignment_witness :
    ((indexChunks
        [⟨"c0", 0, 1, none⟩, ⟨"c1", 1, 1, none⟩, ⟨"c2", 2, 1, none⟩,
         ⟨"c3", 3, 1, none⟩, ⟨"c4", 4, 1, none⟩] ⟨[], [], 10⟩).1).map PChunk.faissId
      = [some 10, some 11, some 12, some 13, some 14]
    ∧ ((indexChunks
        [⟨"c0", 0, 1, none⟩, ⟨"c1", 1, 1, none⟩, ⟨"c2", 2, 1, none⟩,
         ⟨"c3", 3, 1, none⟩, ⟨"c4", 4, 1, none⟩] ⟨[], [], 10⟩).2).indexSize = 15 := by
  have h := C1_index_chunks_id_alignment
    [⟨"c0", 0, 1, none⟩, ⟨"c1", 1, 1, none⟩, ⟨"c2", 2, 1, none⟩,
     ⟨"c3", 3, 1, none⟩, ⟨"c4", 4, 1, none⟩] ⟨[], [], 10⟩ (by decide)
  constructor
  · rw [h.2.1]
    decide
  · exact h.2.2.2

/-- C2: when `process_articles` returns, the vector index and the chunk
store are untouched (no embedding or index append happened), every returned
chunk still has `faiss_id = None`, and every document owning a returned
chunk is marked processed in the store. -/
theorem C2_marks_processed_before_indexing (ids? : Option (List Nat)) (st : ProcState) :
    ((processArticles ids? st).2).indexSize = st.indexSize
    ∧ ((processArticles ids? st).2).chunkStore = st.chunkStore
    ∧ (∀ c ∈ (processArticles ids? st).1, c.faissId = none)
    ∧ (∀ c ∈ (processArticles ids? st).1,
        ∃ a, getArticleById ((processArticles ids? st).2).articles c.articleId = some a
          ∧ a.processed = true) := by
  refine ⟨rfl, rfl, ?_, ?_⟩
  · intro c hc
    simp only [processArticles] at hc
    rcases processArticlesLoop_chunks _ _ _ c hc with h | ⟨a, _, hca⟩
    · cases h
    · simp only [chunkObjectsFor, List.mem_map] at hca
      obtain ⟨rc, _, rfl⟩ := hca
      rfl
  · intro c hc
    simp only [processArticles] at hc ⊢
    rcases processArticlesLoop_chunks _ _ _ c hc with h | ⟨a, ha, hca⟩
    · cases h
    · have hart : c.articleId = a.aid := by
        simp only [chunkObjectsFor, List.mem_map] at hca
        obtain ⟨rc, _, rfl⟩ := hca
        rfl
      have hsome :
          (getArticleById
            (processArticlesLoop (selectArticles st.articles ids?) [] st.articles).2
            a.aid).isSome := by
        rw [processArticlesLoop_db_isSome]
        rw [getArticleById, List.find?_isSome]
        exact ⟨a, selectArticles_mem st.articles ids? a ha, by simp⟩
      obtain ⟨a', ha'⟩ := Option.isSome_iff_exists.mp hsome
      refine ⟨a', ?_, processArticlesLoop_marks _ _ _ a ha a' ha'⟩
      rw [hart]
      exact ha'

/-- C2 witness: one unprocessed two-word article; after `process_articles`
the index size is unchanged, the returned chunk carries no FAISS id, and the
article is marked processed. -/
theorem C2_marks_processed_before_indexing_witness :
    ((processArticles none ⟨[⟨7, "alpha beta", false⟩], [], 3⟩).2).indexSize = 3
    ∧ (⟨"alpha beta", 0, 7, none⟩ : PChunk).faissId = none
    ∧ ∃ a, getArticleById
        ((processArticles none ⟨[⟨7, "alpha beta", false⟩], [], 3⟩).2).articles
        (⟨"alpha beta", 0, 7, none⟩ : PChunk).articleId = some a
        ∧ a.processed = true := by
  have h := C2_marks_processed_before_indexing none ⟨[⟨7, "alpha beta", false⟩], [], 3⟩
  refine ⟨h.1, ?_, ?_⟩
  · exact h.2.2.1 ⟨"alpha beta", 0, 7, none⟩ (by decide)
  · exact h.2.2.2 ⟨"alpha beta", 0, 7, none⟩ (by decide)

/-- Retrieval example store: faiss ids 0 and 2 resolve, id 1 is missing. -/
def exRDB : RDB :=
  { chunks := [⟨"t0", 1, 0⟩, ⟨"t2", 1, 2⟩],
    articles := [⟨1, "T", "u", "s", "d"⟩] }

/-- Three raw k-NN hits at ascending distances, the middle one unresolvable. -/
def exHits : List (ℚ × Int) := [(0, 0), (1, 1), (2, 2)]

/-- C4 counterexample: with the middle hit unresolvable, the surviving
results carry ranks 1 and 3 — the raw `enumerate` positions — whereas the
claimed dense ranking over the filtered list would be 1 and 2. -/
theorem C4_counterexample :
    ((search exRDB exHits none).map (fun r => r.rank)) = [1, 3]
    ∧ ((search exRDB exHits none).map (fun r => r.rank)) ≠ [1, 2] := by
  constructor
  · decide
  · decide

/-- C4 (amended): every returned result's rank is `i + 1` where `i` is the
index of its originating hit in the raw k-NN hit list — the `enumerate`
counter — not its 1-based position in the filtered result list: `search` is
the in-order resolution of the enumerated raw hits, and each kept result's
rank is its raw hit index plus one. -/
theorem C4_rank_is_raw_position_amended (db : RDB) (hits : List (ℚ × Int))
    (srcs : Option (List String)) :
    search db hits srcs
      = hits.enum.filterMap
          (fun p => (resolveHit db srcs p.2).map (fun ca => mkResult ca.1 ca.2 p.2.1 p.1))
    ∧ ∀ r ∈ search db hits srcs, ∃ p ∈ hits.enum,
        r.rank = p.1 + 1
        ∧ (resolveHit db srcs p.2).map (fun ca => mkResult ca.1 ca.2 p.2.1 p.1) = some r := by
  refine ⟨search_eq_filterMap db srcs hits, ?_⟩
  intro r hr
  rw [search_eq_filterMap db srcs hits] at hr
  obtain ⟨p, hp, hpr⟩ := List.mem_filterMap.mp hr
  refine ⟨p, hp, ?_, hpr⟩
  cases hres : resolveHit db srcs p.2 with
  | none =>
    rw [hres] at hpr
    cases hpr
  | some ca =>
    rw [hres] at hpr
    have he := Option.some.inj hpr
    rw [← he]
    rfl

/-- C4 witness: the amended characterization evaluated on the example store
and hits. -/
theorem C4_rank_is_raw_position_witness :
    search exRDB exHits none
      = exHits.enum.filterMap
          (fun p => (resolveHit exRDB none p.2).map (fun ca => mkResult ca.1 ca.2 p.2.1 p.1))
    ∧ ∃ r ∈ search exRDB exHits none, ∃ p ∈ exHits.enum,
        r.rank = p.1 + 1
        ∧ (resolveHit exRDB none p.2).map (fun ca => mkResult ca.1 ca.2 p.2.1 p.1)
            = some r := by
  have h := C4_rank_is_raw_position_amended exRDB exHits none
  refine ⟨h.1, ?_⟩
  have hlen : 0 < (search exRDB exHits none).length := by decide
  refine ⟨(search exRDB exHits none).get ⟨0, hlen⟩, List.get_mem _ _ hlen, ?_⟩
  exact h.2 _ (List.get_mem _ _ hlen)

/-- C5: if the k-NN hits arrive sorted by ascending nonnegative distance,
the results of `search` are sorted by non-increasing score (ties stay in the
raw hit order, since the output is an in-order sublist of the resolved
hits), and for any source filter the filtered result list is a sublist of
the unfiltered result list for the same hits. -/
theorem C5_sorted_and_filtered_subset (db : RDB) (hits : List (ℚ × Int))
    (hsorted : hits.Pairwise (fun p q => p.1 ≤ q.1))
    (hnn : ∀ p ∈ hits, 0 ≤ p.1) :
    (∀ srcs, (search db hits srcs).Pairwise (fun r s => s.score ≤ r.score))
    ∧ (∀ srcsl : List String,
        (search db hits (some srcsl)).Sublist (search db hits none)) := by
  constructor
  · intro srcs
    exact searchGo_sorted db srcs hits 0 hsorted hnn
  · intro srcsl
    rw [search_eq_filterMap db (some srcsl) hits, search_eq_filterMap db none hits]
    apply filterMap_sublist_of_le
    intro p r hp
    cases hres : resolveHit db (some srcsl) p.2 with
    | none =>
      rw [hres] at hp
      cases hp
    | some ca =>
      rw [hres] at hp
      rw [resolveHit_filter_le db srcsl p.2 ca hres]
      exact hp

/-- C5 witness: on the example hits (distances 0 ≤ 1 ≤ 2) the output is
sorted by non-increasing score and the source-filtered run is a sublist of
the unfiltered run. -/
theorem C5_sorted_and_filtered_subset_witness :
    ((search exRDB exHits none).Pairwise (fun r s => s.score ≤ r.score))
    ∧ (search exRDB exHits (some ["nomatch"])).Sublist (search exRDB exHits none) := by
  have hsorted : exHits.Pairwise (fun p q => p.1 ≤ q.1) := by
    norm_num [exHits, List.pairwise_cons]
  have hnn : ∀ p ∈ exHits, 0 ≤ p.1 := by
    intro p hp
    simp only [exHits, List.mem_cons, List.not_mem_nil, or_false] at hp
    rcases hp with rfl | rfl | rfl <;> norm_num
  have h := C5_sorted_and_filtered_subset exRDB exHits hsorted hnn
  exact ⟨h.1 none, h.2 ["nomatch"]⟩

/-- C6: `score = 1/(1+d)` is strictly decreasing over distances `d ≥ 0`,
equals 1 exactly at `d = 0`, and lies in `(0, 1]` for every `d ≥ 0`. -/
theorem C6_simScore_properties :
    (∀ a b : ℚ, 0 ≤ a → a < b → simScore b < simScore a)
    ∧ simScore 0 = 1
    ∧ (∀ d : ℚ, 0 ≤ d → 0 < simScore d ∧ simScore d ≤ 1) := by
  refine ⟨?_, by norm_num [simScore], ?_⟩
  · intro a b ha hab
    unfold simScore
    exact one_div_lt_one_div_of_lt (by linarith) (by linarith)
  · intro d hd
    unfold simScore
    constructor
    · exact div_pos one_pos (by linarith)
    · rw [div_le_one (by linarith)]
      linarith

/-- C6 witness: the score mapping evaluated at distances 0, 1, and 2. -/
theorem C6_simScore_properties_witness :
    simScore 1 < simScore 0
    ∧ simScore 0 = 1
    ∧ 0 < simScore 2 ∧ simScore 2 ≤ 1 := by
  refine ⟨C6_simScore_properties.1 0 1 (by norm_num) (by norm_num),
          C6_simScore_properties.2.1,
          (C6_simScore_properties.2.2 2 (by norm_num)).1,
          (C6_simScore_properties.2.2 2 (by norm_num)).2⟩

theorem insertArticle_urlUnique (db : List DArticle) (a : DArticle)
    (hu : urlUnique db) : urlUnique (insertArticle db a) := by
  induction db with
  | nil => simp [insertArticle, urlUnique]
  | cons y rest ih =>
    have hu' : urlUnique rest := by
      simpa [urlUnique] using (List.nodup_cons.mp hu).2
    have hyn : y.url ∉ rest.map DArticle.url := by
      simpa [urlUnique] using (List.nodup_cons.mp hu).1
    simp only [insertArticle]
    by_cases hy : (y.url == a.url) = true
    · rw [if_pos hy]
      have hay : a.url = y.url := (beq_iff_eq.mp hy).symm
      simp only [urlUnique, List.map_cons, List.nodup_cons]
      refine ⟨by rw [hay]; exact hyn, ?_⟩
      simpa [urlUnique] using hu'
    · rw [if_neg hy]
      simp only [urlUnique, List.map_cons, List.nodup_cons]
      constructor
      · intro hmem
        obtain ⟨x, hx, hxu⟩ := List.mem_map.mp hmem
        rcases insertArticle_urls_of_mem rest a x hx with h | h
        · rw [hxu] at h
          exact hyn h
        · rw [hxu] at h
          exact (by simpa using hy : ¬ y.url = a.url) h
      · simpa [urlUnique] using ih hu'

theorem insertArticle_length_of_mem (db : List DArticle) (a : DArticle)
    (hmem : ∃ x ∈ db, x.url = a.url) :
    (insertArticle db a).length = db.length := by
  induction db with
  | nil => obtain ⟨x, hx, _⟩ := hmem; cases hx
  | cons y rest ih =>
    simp only [insertArticle]
    by_cases hy : (y.url == a.url) = true
    · rw [if_pos hy]
      simp
    · rw [if_neg hy]
      obtain ⟨x, hx, hxu⟩ := hmem
      rcases List.mem_cons.mp hx with rfl | hxr
      · exact absurd (by simpa using hxu) (by simpa using hy)
      · simp only [List.length_cons]
        rw [ih ⟨x, hxr, hxu⟩]

/-- C7: `insert_article` is an upsert keyed on URL: it preserves
URL-uniqueness of the document store (also across any sequence of inserts),
leaves exactly one stored document for an already-present URL, and never
grows the store when the URL was already present. -/
theorem C7_insert_article_upsert (db : List DArticle) (a : DArticle)
    (hu : urlUnique db) :
    urlUnique (insertArticle db a)
    ∧ (insertArticle db a).countP (fun x => x.url == a.url) = 1
    ∧ ((∃ x ∈ db, x.url = a.url) → (insertArticle db a).length = db.length)
    ∧ (∀ batch : List DArticle, urlUnique (batch.foldl insertArticle db)) := by
  refine ⟨insertArticle_urlUnique db a hu, insertArticle_countP db a hu,
    insertArticle_length_of_mem db a, ?_⟩
  intro batch
  clear a
  induction batch generalizing db with
  | nil => exact hu
  | cons b rest ih =>
    simp only [List.foldl_cons]
    exact ih (insertArticle db b) (insertArticle_urlUnique db b hu)

/-- C7 witness: inserting a second document with the URL already stored
leaves a unique-URL store of unchanged size with exactly one document for
that URL. -/
theorem C7_insert_article_upsert_witness :
    urlUnique (insertArticle [⟨1, "t1", "c1", "u", "s", false⟩]
      ⟨2, "t2", "c2", "u", "s", true⟩)
    ∧ (insertArticle [⟨1, "t1", "c1", "u", "s", false⟩]
        ⟨2, "t2", "c2", "u", "s", true⟩).countP
          (fun x => x.url == (⟨2, "t2", "c2", "u", "s", true⟩ : DArticle).url) = 1
    ∧ (insertArticle [⟨1, "t1", "c1", "u", "s", false⟩]
        ⟨2, "t2", "c2", "u", "s", true⟩).length = 1 := by
  have hu : urlUnique [(⟨1, "t1", "c1", "u", "s", false⟩ : DArticle)] := by
    unfold urlUnique
    decide
  have h := C7_insert_article_upsert [⟨1, "t1", "c1", "u", "s", false⟩]
    ⟨2, "t2", "c2", "u", "s", true⟩ hu
  exact ⟨h.1, h.2.1, h.2.2.1 ⟨⟨1, "t1", "c1", "u", "s", false⟩, by decide, rfl⟩⟩

/-- One-step unfolding of the page loop. -/
theorem scrapeLoop_eq (maxA : Option Nat) (pages : List (Option (List PageLink)))
    (st : SessState) (cep v : Nat) :
    scrapeLoop maxA pages st cep v
      = if capReached maxA st.found then ⟨st, v, StopReason.maxReached⟩
        else match pages with
        | [] => ⟨st, v, StopReason.fetchFail⟩
        | none :: _ => ⟨st, v + 1, StopReason.fetchFail⟩
        | some links :: rest =>
          if links.isEmpty then
            if cep + 1 ≥ MAX_EMPTY_PAGES then ⟨st, v + 1, StopReason.emptyPages⟩
            else if cep + 2 ≥ MAX_EMPTY_PAGES then ⟨st, v + 1, StopReason.emptyPages⟩
            else scrapeLoop maxA rest st (cep + 2) (v + 1)
          else
            if (processLinks maxA links st 0).2 > 0 then
              scrapeLoop maxA rest (processLinks maxA links st 0).1 0 (v + 1)
            else if cep + 1 ≥ MAX_EMPTY_PAGES then
              ⟨(processLinks maxA links st 0).1, v + 1, StopReason.emptyPages⟩
            else scrapeLoop maxA rest (processLinks maxA links st 0).1 (cep + 1) (v + 1) := by
  cases pages with
  | nil => rfl
  | cons p rest =>
    cases p with
    | none => rfl
    | some links => rfl

/-- C8 counterexample: a non-200 status is not retried — `fetch_page`
returns no page at once even though the next attempt would have returned a
200 body — while a network error on the first attempt is retried. -/
theorem C8_counterexample :
    fetchPage [FetchOutcome.resp 500 "", FetchOutcome.resp 200 "ok",
        FetchOutcome.resp 200 "ok"] = none
    ∧ fetchPage [FetchOutcome.err, FetchOutcome.resp 200 "ok",
        FetchOutcome.resp 200 "ok"] = some "ok" := by
  exact ⟨rfl, rfl⟩

/-- C8 (amended): `fetch_page` makes up to `MAX_RETRIES = 3` attempts but
retries (after a fixed 1-second sleep) only when the request raises a
network error; a response with any non-200 status makes it return no page
immediately, without retrying; the body is returned only on a 200 response;
three consecutive network errors exhaust the attempts; and a fetch that
returns no page stops the crawl session at that page. -/
theorem C8_fetch_retry_amended :
    MAX_RETRIES = 3
    ∧ (∀ (body : String) (rest : List FetchOutcome),
        fetchPage (FetchOutcome.resp 200 body :: rest) = some body)
    ∧ (∀ (status : Nat) (body : String) (rest : List FetchOutcome), status ≠ 200 →
        fetchPage (FetchOutcome.resp status body :: rest) = none)
    ∧ (∀ rest : List FetchOutcome,
        fetchPage (FetchOutcome.err :: rest) = fetchGo 1 rest)
    ∧ fetchPage [FetchOutcome.err, FetchOutcome.err, FetchOutcome.err] = none
    ∧ (∀ (maxA : Option Nat) (rest : List (Option (List PageLink)))
        (st : SessState) (cep visited : Nat),
        capReached maxA st.found = false →
        scrapeLoop maxA (none :: rest) st cep visited
          = ⟨st, visited + 1, StopReason.fetchFail⟩) := by
  refine ⟨rfl, fun body rest => rfl, ?_, fun rest => rfl, rfl, ?_⟩
  · intro status body rest h
    have hb : (status == 200) = false := by simpa using h
    simp [fetchPage, fetchGo, hb]
  · intro maxA rest st cep visited hcap
    rw [scrapeLoop_eq]
    simp [hcap]

/-- C8 witness: a single 404 response yields no page; a failed page fetch
ends the session with the state unchanged. -/
theorem C8_fetch_retry_amended_witness :
    fetchPage [FetchOutcome.resp 404 "x"] = none
    ∧ scrapeLoop none [none] ⟨0, []⟩ 0 0 = ⟨⟨0, []⟩, 1, StopReason.fetchFail⟩ := by
  refine ⟨C8_fetch_retry_amended.2.2.1 404 "x" [] (by decide), ?_⟩
  exact C8_fetch_retry_amended.2.2.2.2.2 none [] ⟨0, []⟩ 0 0 (by decide)

/-- C9 counterexample: three consecutive zero-link pages already stop the
session with the `max_empty_pages = 5` threshold (each such page increments
the single counter twice), whereas one increment per empty page would need
five pages; two zero-link pages do not yet stop it. -/
theorem C9_counterexample :
    (scrapeSession none [some [], some [], some []]).reason = StopReason.emptyPages
    ∧ (scrapeSession none [some [], some [], some []]).pagesVisited = 3
    ∧ (scrapeSession none [some [], some []]).reason ≠ StopReason.emptyPages
    ∧ MAX_EMPTY_PAGES = 5 := by
  refine ⟨by decide, by decide, by decide, rfl⟩

/-- C9 (amended): the base crawl loop keeps a single
consecutive-empty-page counter with threshold `max_empty_pages = 5` (the
`pages_without_new`/threshold-10 pair initialised on the scraper is used
only by the USAO override). Per page, when the budget cap has not fired: a
page with zero links increments the counter twice — once at the
zero-links check and once at the zero-new-saves check — stopping as soon
as either reaches the threshold; a page with links and at least one new
save resets the counter to zero; a page with links and zero new saves
increments it by exactly one, stopping at the threshold. -/
theorem C9_empty_page_counters_amended (maxA : Option Nat) (st : SessState)
    (cep visited : Nat) (rest : List (Option (List PageLink)))
    (hcap : capReached maxA st.found = false) :
    MAX_EMPTY_PAGES = 5
    ∧ (cep + 2 < MAX_EMPTY_PAGES →
        scrapeLoop maxA (some [] :: rest) st cep visited
          = scrapeLoop maxA rest st (cep + 2) (visited + 1))
    ∧ (cep + 2 ≥ MAX_EMPTY_PAGES →
        scrapeLoop maxA (some [] :: rest) st cep visited
          = ⟨st, visited + 1, StopReason.emptyPages⟩)
    ∧ (∀ (links : List PageLink) (st' : SessState) (pn : Nat), links ≠ [] →
        processLinks maxA links st 0 = (st', pn) →
        (pn > 0 →
          scrapeLoop maxA (some links :: rest) st cep visited
            = scrapeLoop maxA rest st' 0 (visited + 1))
        ∧ (pn = 0 → cep + 1 < MAX_EMPTY_PAGES →
          scrapeLoop maxA (some links :: rest) st cep visited
            = scrapeLoop maxA rest st' (cep + 1) (visited + 1))
        ∧ (pn = 0 → cep + 1 ≥ MAX_EMPTY_PAGES →
          scrapeLoop maxA (some links :: rest) st cep visited
            = ⟨st', visited + 1, StopReason.emptyPages⟩)) := by
  refine ⟨rfl, ?_, ?_, ?_⟩
  · intro h2
    have h1 : ¬ (cep + 1 ≥ MAX_EMPTY_PAGES) := by
      simp only [MAX_EMPTY_PAGES] at h2 ⊢
      omega
    rw [scrapeLoop_eq]
    simp [hcap, h1, by simpa using Nat.not_le.mpr h2]
  · intro h2
    rw [scrapeLoop_eq]
    by_cases h1 : cep + 1 ≥ MAX_EMPTY_PAGES
    · simp [hcap, h1]
    · simp [hcap, h1, h2]
  · intro links st' pn hne hpl
    have hie : links.isEmpty = false := by
      cases links with
      | nil => exact absurd rfl hne
      | cons a b => rfl
    refine ⟨?_, ?_, ?_⟩
    · intro hpn
      rw [scrapeLoop_eq]
      simp [hcap, hie, hpl, hpn]
    · intro hpn h1
      rw [scrapeLoop_eq]
      have h1' : ¬ (cep + 1 ≥ MAX_EMPTY_PAGES) := by omega
      simp [hcap, hie, hpl, hpn, h1']
    · intro hpn h1
      rw [scrapeLoop_eq]
      simp [hcap, hie, hpl, hpn, h1]

/-- C9 witness: from a fresh state, a zero-link page steps the counter from
0 to 2; at counter 3 a zero-link page stops the session; a page whose one
link is saved recurses with the counter reset to 0. -/
theorem C9_empty_page_counters_witness :
    scrapeLoop none [some []] ⟨0, []⟩ 0 0 = scrapeLoop none [] ⟨0, []⟩ 2 1
    ∧ scrapeLoop none [some []] ⟨0, []⟩ 3 0 = ⟨⟨0, []⟩, 1, StopReason.emptyPages⟩
    ∧ scrapeLoop none [some [⟨"u", some "u"⟩]] ⟨0, []⟩ 4 0
        = scrapeLoop none [] ⟨1, ["u"]⟩ 0 1 := by
  have h0 := C9_empty_page_counters_amended none ⟨0, []⟩ 0 0 [] (by decide)
  have h3 := C9_empty_page_counters_amended none ⟨0, []⟩ 3 0 [] (by decide)
  have h4 := C9_empty_page_counters_amended none ⟨0, []⟩ 4 0 [] (by decide)
  refine ⟨h0.2.1 (by decide), h3.2.2.1 (by decide), ?_⟩
  exact (h4.2.2.2 [⟨"u", some "u"⟩] ⟨1, ["u"]⟩ 1 (by decide) (by decide)).1 (by decide)

theorem capReached_none_eq (f : Nat) : capReached none f = false := rfl

theorem capReached_some_zero (f : Nat) : capReached (some 0) f = false := rfl

theorem saveArticle_cap_disabled (st : SessState) (u : String) :
    saveArticle (some 0) st u = saveArticle none st u := by
  unfold saveArticle
  rw [capReached_some_zero, capReached_none_eq]

theorem processLinks_cap_disabled :
    ∀ (links : List PageLink) (st : SessState) (pn : Nat),
      processLinks (some 0) links st pn = processLinks none links st pn := by
  intro links
  induction links with
  | nil => intro st pn; rfl
  | cons l rest ih =>
    intro st pn
    simp only [processLinks, capReached_some_zero, capReached_none_eq, Bool.false_eq_true,
      if_false]
    by_cases hc : st.db.contains l.url = true
    · rw [if_pos hc, if_pos hc]
      exact ih st pn
    · rw [if_neg hc, if_neg hc]
      cases hs : l.scraped with
      | none => exact ih st pn
      | some u =>
        simp only [saveArticle_cap_disabled]
        exact ih _ _

theorem scrapeLoop_cap_disabled :
    ∀ (pages : List (Option (List PageLink))) (st : SessState) (cep visited : Nat),
      scrapeLoop (some 0) pages st cep visited = scrapeLoop none pages st cep visited := by
  intro pages
  induction pages with
  | nil =>
    intro st cep v
    rw [scrapeLoop_eq, scrapeLoop_eq, capReached_some_zero, capReached_none_eq]
  | cons p rest ih =>
    intro st cep v
    rw [scrapeLoop_eq, scrapeLoop_eq, capReached_some_zero, capReached_none_eq]
    simp only [Bool.false_eq_true, if_false]
    cases p with
    | none => rfl
    | some links =>
      dsimp only
      by_cases hie : links.isEmpty = true
      · rw [if_pos hie, if_pos hie]
        by_cases h1 : cep + 1 ≥ MAX_EMPTY_PAGES
        · rw [if_pos h1, if_pos h1]
        · rw [if_neg h1, if_neg h1]
          by_cases h2 : cep + 2 ≥ MAX_EMPTY_PAGES
          · rw [if_pos h2, if_pos h2]
          · rw [if_neg h2, if_neg h2]
            exact ih st (cep + 2) (v + 1)
      · rw [if_neg hie, if_neg hie]
        rw [processLinks_cap_disabled links st 0]
        by_cases hp : (processLinks none links st 0).2 > 0
        · rw [if_pos hp, if_pos hp]
          exact ih _ 0 (v + 1)
        · rw [if_neg hp, if_neg hp]
          by_cases h1 : cep + 1 ≥ MAX_EMPTY_PAGES
          · rw [if_pos h1, if_pos h1]
          · rw [if_neg h1, if_neg h1]
            exact ih _ (cep + 1) (v + 1)

theorem processLinks_found_le (m : Nat) (hm : 0 < m) :
    ∀ (links : List PageLink) (st : SessState) (pn : Nat), st.found ≤ m →
      ((processLinks (some m) links st pn).1).found ≤ m := by
  intro links
  induction links with
  | nil => intro st pn h; exact h
  | cons l rest ih =>
    intro st pn h
    simp only [processLinks]
    by_cases hcap : capReached (some m) st.found = true
    · rw [if_pos hcap]
      exact h
    · rw [if_neg hcap]
      by_cases hc : st.db.contains l.url = true
      · rw [if_pos hc]
        exact ih st pn h
      · rw [if_neg hc]
        cases hs : l.scraped with
        | none => exact ih st pn h
        | some u =>
          have hlt : st.found < m := by
            simp only [capReached, Bool.and_eq_true, bne_iff_ne, ne_eq,
              decide_eq_true_eq] at hcap
            omega
          simp only [saveArticle, if_neg hcap]
          by_cases hdb : st.db.contains u = true
          · rw [if_pos hdb]
            exact ih st _ h
          · rw [if_neg hdb]
            exact ih _ _ (by simpa using hlt)

theorem scrapeLoop_found_le (m : Nat) (hm : 0 < m) :
    ∀ (pages : List (Option (List PageLink))) (st : SessState) (cep visited : Nat),
      st.found ≤ m →
      (((scrapeLoop (some m) pages st cep visited).st).found) ≤ m := by
  intro pages
  induction pages with
  | nil =>
    intro st cep v h
    rw [scrapeLoop_eq]
    split
    · exact h
    · exact h
  | cons p rest ih =>
    intro st cep v h
    rw [scrapeLoop_eq]
    split
    · exact h
    · cases p with
      | none => exact h
      | some links =>
        dsimp only
        by_cases hie : links.isEmpty = true
        · rw [if_pos hie]
          by_cases h1 : cep + 1 ≥ MAX_EMPTY_PAGES
          · rw [if_pos h1]
            exact h
          · rw [if_neg h1]
            by_cases h2 : cep + 2 ≥ MAX_EMPTY_PAGES
            · rw [if_pos h2]
              exact h
            · rw [if_neg h2]
              exact ih st (cep + 2) (v + 1) h
        · rw [if_neg hie]
          have hpl := processLinks_found_le m hm links st 0 h
          by_cases hp : (processLinks (some m) links st 0).2 > 0
          · rw [if_pos hp]
            exact ih _ 0 (v + 1) hpl
          · rw [if_neg hp]
            by_cases h1 : cep + 1 ≥ MAX_EMPTY_PAGES
            · rw [if_pos h1]
              exact hpl
            · rw [if_neg h1]
              exact ih _ (cep + 1) (v + 1) hpl

/-- C10: because every budget check tests the truthiness of `max_articles`
first, `max_articles = 0` (like `None`) disables the article cap entirely —
the whole session behaves exactly as with no cap, and a new URL is saved
unconditionally — while for any positive `max_articles = m` a session
started from a fresh scraper saves at most `m` new documents. -/
theorem C10_zero_max_articles_disables_cap :
    (∀ (pages : List (Option (List PageLink))) (st : SessState) (cep visited : Nat),
        scrapeLoop (some 0) pages st cep visited = scrapeLoop none pages st cep visited)
    ∧ (∀ (st : SessState) (u : String), st.db.contains u = false →
        saveArticle (some 0) st u = (true, ⟨st.found + 1, st.db ++ [u]⟩)
          ∧ saveArticle none st u = (true, ⟨st.found + 1, st.db ++ [u]⟩))
    ∧ (∀ m : Nat, 0 < m → ∀ pages : List (Option (List PageLink)),
        ((scrapeSession (some m) pages).st).found ≤ m) := by
  refine ⟨scrapeLoop_cap_disabled, ?_, ?_⟩
  · intro st u hdb
    constructor
    · unfold saveArticle
      rw [capReached_some_zero, hdb]
      rfl
    · unfold saveArticle
      rw [capReached_none_eq, hdb]
      rfl
  · intro m hm pages
    exact scrapeLoop_found_le m hm pages ⟨0, []⟩ 0 0 (Nat.zero_le m)

/-- C10 witness: with `max_articles = 0` a one-link session equals the
uncapped session and the new article is saved; with `max_articles = 2` a
three-link session saves at most 2. -/
theorem C10_zero_max_articles_disables_cap_witness :
    scrapeLoop (some 0) [some [⟨"u", some "u"⟩]] ⟨0, []⟩ 0 0
      = scrapeLoop none [some [⟨"u", some "u"⟩]] ⟨0, []⟩ 0 0
    ∧ saveArticle (some 0) ⟨0, []⟩ "u" = (true, ⟨1, ["u"]⟩)
    ∧ ((scrapeSession (some 2)
        [some [⟨"a", some "a"⟩, ⟨"b", some "b"⟩, ⟨"c", some "c"⟩]]).st).found ≤ 2 := by
  refine ⟨C10_zero_max_articles_disables_cap.1 [some [⟨"u", some "u"⟩]] ⟨0, []⟩ 0 0, ?_, ?_⟩
  · exact (C10_zero_max_articles_disables_cap.2.1 ⟨0, []⟩ "u" (by decide)).1
  · exact C10_zero_max_articles_disables_cap.2.2 2 (by decide) _
